import Mathlib

/-!
Verification of the asset-tag allocation core of the partvault application
(file `partvault/models.py`: `AssetTagSequence` with its `reserve`, `assign`
and `save` operations and the `void_asset_tag_on_item_delete` receiver, and
file `partvault/views.py`: the base-36 helpers `_base36_to_int` and
`_int_to_base36` and the reserved-tag range summary of the `profile` view).

The database-backed ledger is embedded shallowly: a `Ledger` is the list of
`AssetTagSequence` rows together with the auto-increment counter, operations
are pure functions from ledger to ledger, and fallible operations return
`Except`. Machine integers of the source are modelled as `Nat` / `Int`
(Python integers are unbounded, so no wrap-around is involved).
-/

namespace PartVault

/-- The digit alphabet shared by `AssetTagSequence._to_base36` (models.py),
`_int_to_base36` and `_base36_to_int` (views.py):
"0123456789ABCDEFGHIJKLMNOPQRSTUVWXYZ". -/
def base36Alphabet : List Char :=
  "0123456789ABCDEFGHIJKLMNOPQRSTUVWXYZ".toList

/-- `alphabet[rem]` of the Python encoders: the digit character for a
remainder `r < 36`. -/
def base36Digit (r : Nat) : Char :=
  base36Alphabet.getD r '0'

/-- The while-loop of `_to_base36` / `_int_to_base36`:
`while value: value, rem = divmod(value, 36); chars.append(alphabet[rem])`
followed by the final reversal. Pushing each digit on the front of the
accumulator is the loop body `append` fused with the closing
`reversed(chars)`. -/
def toBase36Chars (value : Nat) (chars : List Char) : List Char :=
  if h : value = 0 then chars
  else toBase36Chars (value / 36) (base36Digit (value % 36) :: chars)
termination_by value
decreasing_by exact Nat.div_lt_self (Nat.pos_of_ne_zero h) (by decide)

/-- `AssetTagSequence._to_base36(value)` from models.py:
returns "0" for `value <= 0`, otherwise the base-36 digits, most
significant first. -/
def to_base36 (value : Int) : String :=
  if value ≤ 0 then "0" else String.mk (toBase36Chars value.toNat [])

/-- `_int_to_base36(value)` from views.py: a line-for-line copy of
`AssetTagSequence._to_base36`. -/
def int_to_base36 (value : Int) : String :=
  if value ≤ 0 then "0" else String.mk (toBase36Chars value.toNat [])

/-- `alphabet.index(char)` of `_base36_to_int`: the position of `c` in the
digit alphabet, `none` when the character is not a base-36 digit (Python
raises `ValueError` there). -/
def charIndex36 (c : Char) : Option Nat :=
  base36Alphabet.indexOf? c

/-- The loop of `_base36_to_int`:
`for char in value.upper(): total = total * 36 + alphabet.index(char)`. -/
def decodeAux (total : Nat) : List Char → Option Nat
  | [] => some total
  | c :: cs =>
    match charIndex36 c with
    | none => none
    | some i => decodeAux (total * 36 + i) cs

/-- `_base36_to_int(value)` from views.py. `value.upper()` is modelled as
the character-wise ASCII upcasing, which agrees with Python on every string
the codec accepts. A character outside the alphabet yields `none` where
Python raises `ValueError`. -/
def base36_to_int (value : String) : Option Nat :=
  decodeAux 0 (value.toList.map Char.toUpper)

/-- Python `s.zfill(width)`: left-pad with the character zero up to `width`;
a string at least `width` long is returned unchanged (never truncated). The
sign-handling branch of `zfill` is irrelevant here, no encoder output starts
with a sign. -/
def zfill (s : String) (width : Nat) : String :=
  String.mk (List.replicate (width - s.length) '0' ++ s.toList)

example : to_base36 0 = "0" := by decide
example : to_base36 35 = "Z" := by simp [to_base36, toBase36Chars]; decide
example : to_base36 36 = "10" := by simp [to_base36, toBase36Chars]; decide
example : to_base36 (-7) = "0" := by decide
example : zfill (to_base36 42) 6 = "000016" := by
  simp [to_base36, toBase36Chars, zfill]; decide
example : base36_to_int "000016" = some 42 := by decide
example : base36_to_int "1G!" = none := by decide

/-- The `AssetTagSequence.Status` choices of models.py. -/
inductive TagStatus where
  | reserved
  | assigned
  | void
  deriving DecidableEq, Repr

/-- One `AssetTagSequence` row. `id` is the auto-increment primary key,
`asset_tag` the nullable unique 6-character string, `reserved_by` the
nullable user foreign key, `assigned_item` the nullable one-to-one item
foreign key; timestamps are abstract `Nat` instants. -/
structure TagRecord where
  id : Nat
  asset_tag : Option String
  status : TagStatus
  reserved_by : Option Nat
  reserved_at : Nat
  assigned_item : Option Nat
  assigned_at : Option Nat
  deriving DecidableEq, Repr

/-- The ledger table: stored rows in insertion order together with the next
auto-increment id the storage layer will hand out. -/
structure Ledger where
  nextId : Nat
  records : List TagRecord
  deriving DecidableEq, Repr

/-- The empty table; database auto-increment keys start at 1. -/
def initLedger : Ledger :=
  { nextId := 1, records := [] }

/-- The tag-filling branch of the `AssetTagSequence.save` override:
`if is_new and not self.asset_tag: self.asset_tag = self._to_base36(self.id).zfill(6)`.
Python truthiness makes both a null and an empty tag falsy. -/
def savedTag (rid : Nat) (tag : Option String) : Option String :=
  match tag with
  | none => some (zfill (to_base36 (Int.ofNat rid)) 6)
  | some t => if t = "" then some (zfill (to_base36 (Int.ofNat rid)) 6) else some t

/-- The tag string a freshly created row with primary key `rid` receives. -/
def tagOf (rid : Nat) : String :=
  zfill (to_base36 (Int.ofNat rid)) 6

/-- `cls.objects.create(reserved_by=user)` followed by the `save` override:
the storage layer assigns the next id, the row is inserted with the default
status `reserved`, `reserved_at` set to the current instant by
`auto_now_add`, and the second phase of `save` fills `asset_tag` from the
now-known id. The two-phase insert is collapsed to its net effect on the
committed state. -/
def createReserved (st : Ledger) (user now : Nat) : TagRecord × Ledger :=
  let rid := st.nextId
  let inserted : TagRecord :=
    { id := rid, asset_tag := none, status := TagStatus.reserved,
      reserved_by := some user, reserved_at := now,
      assigned_item := none, assigned_at := none }
  let saved : TagRecord := { inserted with asset_tag := savedTag rid inserted.asset_tag }
  (saved, { nextId := rid + 1, records := st.records ++ [saved] })

/-- `cls.objects.filter(reserved_by=user, status=cls.Status.RESERVED).count()`
from `AssetTagSequence.reserve`. -/
def countReservedBy (st : Ledger) (user : Nat) : Nat :=
  (st.records.filter
    (fun r => r.reserved_by == some user && r.status == TagStatus.reserved)).length

/-- The one failure the allocator reports: the `ValueError` raised by
`reserve` when the user already holds 1000 reserved tags. -/
inductive AllocError where
  | quotaExceeded
  deriving DecidableEq, Repr

/-- `AssetTagSequence.reserve(user)`: raise when the reserved count has
reached 1000, otherwise append a fresh reserved row. -/
def reserve (st : Ledger) (user now : Nat) : Except AllocError (TagRecord × Ledger) :=
  if 1000 ≤ countReservedBy st user then Except.error AllocError.quotaExceeded
  else Except.ok (createReserved st user now)

/-- The row filter of `AssetTagSequence.assign`:
`reserved_by=user, status=RESERVED, assigned_item__isnull=True`. -/
def isUnassignedReservedBy (user : Nat) (r : TagRecord) : Bool :=
  r.reserved_by == some user && r.status == TagStatus.reserved &&
    r.assigned_item == none

/-- `order_by("reserved_at").first()` over a candidate list: the first
stored row carrying the minimal `reserved_at`. The query orders by
`reserved_at` alone, so ties are left to the database; taking the earliest
stored row is one faithful resolution. -/
def selOldest : Option TagRecord → List TagRecord → Option TagRecord
  | best, [] => best
  | none, r :: rs => selOldest (some r) rs
  | some b, r :: rs =>
    selOldest (if r.reserved_at < b.reserved_at then some r else some b) rs

/-- The locked candidate query of `AssetTagSequence.assign`. The
`select_for_update(skip_locked=True)` row lock matters only under
concurrency; in this sequential embedding every row is unlocked. -/
def findOldestUnassignedReservedBy (st : Ledger) (user : Nat) : Option TagRecord :=
  selOldest none (st.records.filter (isUnassignedReservedBy user))

/-- The in-memory mutation of the chosen row in `AssetTagSequence.assign`:
`status = ASSIGNED; assigned_item = item; assigned_at = now`. -/
def markAssignedRecord (item now : Nat) (r : TagRecord) : TagRecord :=
  { r with
      status := TagStatus.assigned
      assigned_item := some item
      assigned_at := some now }

/-- `asset_tag.save(update_fields=["status", "assigned_item", "assigned_at"])`:
the stored row with the given primary key takes the three updated fields,
every other row and every other field is untouched. -/
def markAssigned (st : Ledger) (rid item now : Nat) : Ledger :=
  { st with records :=
      st.records.map (fun r => if r.id = rid then markAssignedRecord item now r else r) }

/-- `AssetTagSequence.assign(user, item)`: find and claim the oldest
unassigned reserved row of the user, minting a fresh one via `reserve` when
none exists, then persist the assignment; the only failure is the quota
error propagated out of `reserve`. -/
def assign (st : Ledger) (user item now : Nat) : Except AllocError (TagRecord × Ledger) :=
  match findOldestUnassignedReservedBy st user with
  | some r => Except.ok (markAssignedRecord item now r, markAssigned st r.id item now)
  | none =>
    match reserve st user now with
    | Except.error e => Except.error e
    | Except.ok (r, st1) => Except.ok (markAssignedRecord item now r, markAssigned st1 r.id item now)

/-- The `on_delete=models.SET_NULL` behaviour of the `assigned_item`
foreign key: deleting an item nulls the reference in any row holding it. -/
def setNullAssignedItem (st : Ledger) (item : Nat) : Ledger :=
  { st with records :=
      st.records.map (fun r =>
        if r.assigned_item = some item then { r with assigned_item := none } else r) }

/-- The `post_delete` receiver `void_asset_tag_on_item_delete` of models.py,
applied to the `asset_tag` value stored on the deleted item: return unchanged
when the tag is falsy (null or empty), otherwise set status `void` on every
row whose `asset_tag` matches
(`objects.filter(asset_tag=...).update(status=VOID)`). -/
def void_asset_tag_on_item_delete (st : Ledger) (itemTag : Option String) : Ledger :=
  match itemTag with
  | none => st
  | some t =>
    if t = "" then st
    else
      { st with records :=
          st.records.map (fun r =>
            if r.asset_tag = some t then { r with status := TagStatus.void } else r) }

/-- The `asset_tag` string stored on an item that went through the
`Item.save` flow: the tag of the ledger row assigned to it, if any. -/
def itemTagOf (st : Ledger) (item : Nat) : Option String :=
  (st.records.find? (fun r => r.assigned_item == some item)).bind TagRecord.asset_tag

/-- Deletion of an item: the `SET_NULL` update on the `assigned_item`
foreign key followed by the `post_delete` receiver, which reads the tag
string the item carried before deletion. -/
def deleteItem (st : Ledger) (item : Nat) : Ledger :=
  void_asset_tag_on_item_delete (setNullAssignedItem st item) (itemTagOf st item)

/-- One committed allocator operation. An `assign` step carries the
freshness guard on its item: `assigned_item` is a `OneToOneField`, so a
save binding an already-bound item violates the unique constraint, the
surrounding `transaction.atomic` rolls back and no new state is committed. -/
inductive Step : Ledger → Ledger → Prop where
  | reserveStep (st : Ledger) (user now : Nat) (r : TagRecord) (st' : Ledger) :
      reserve st user now = Except.ok (r, st') → Step st st'
  | assignStep (st : Ledger) (user item now : Nat) (r : TagRecord) (st' : Ledger) :
      (∀ q ∈ st.records, q.assigned_item ≠ some item) →
      assign st user item now = Except.ok (r, st') → Step st st'
  | releaseStep (st : Ledger) (item : Nat) : Step st (deleteItem st item)

/-- Ledger states reachable from the empty table by committed operations. -/
inductive Reachable : Ledger → Prop where
  | init : Reachable initLedger
  | step {st st' : Ledger} : Reachable st → Step st st' → Reachable st'

/-- Python `s.strip()`: drop whitespace from both ends of the character
list. -/
def stripChars (l : List Char) : List Char :=
  ((l.dropWhile Char.isWhitespace).reverse.dropWhile Char.isWhitespace).reverse

/-- The tag normalisation of the `profile` view (views.py):
`[asset_tag.strip().upper() for asset_tag in reserved_asset_tags if asset_tag]`.
A null tag coming out of the database is modelled as the empty string; both
are falsy and dropped by the comprehension filter. -/
def normalizeTags (tags : List String) : List String :=
  (tags.filter (fun t => t != "")).map
    (fun t => String.mk ((stripChars t.toList).map Char.toUpper))

/-- `sorted(...)` of the `profile` view: sort the decoded ids ascending. -/
def sortNat (l : List Nat) : List Nat :=
  List.insertionSort (· ≤ ·) l

/-- One entry appended to `reserved_asset_tag_labels` by the `profile`
view: a display label and the size of the range it stands for. -/
structure RangeLabel where
  label : String
  count : Int
  deriving DecidableEq, Repr

/-- The range-accumulation loop of the `profile` view over the sorted ids:
a value equal to `stop + 1` extends the current range, any other value
emits the current range and opens a new one; the trailing
`ranges.append((start, end))` after the loop is the nil case. -/
def foldRanges (start stop : Nat) : List Nat → List (Nat × Nat)
  | [] => [(start, stop)]
  | v :: vs =>
    if v = stop + 1 then foldRanges start v vs
    else (start, stop) :: foldRanges v v vs

/-- The label and count rendered for one range by the `profile` view:
`start_tag` when the range is a single id, otherwise
`start_tag ++ " - " ++ end_tag`, with `count = range_end - range_start + 1`. -/
def rangeLabel (p : Nat × Nat) : RangeLabel :=
  { label :=
      if p.1 = p.2 then zfill (int_to_base36 (Int.ofNat p.1)) 6
      else zfill (int_to_base36 (Int.ofNat p.1)) 6 ++ " - " ++
        zfill (int_to_base36 (Int.ofNat p.2)) 6,
    count := (p.2 : Int) - (p.1 : Int) + 1 }

/-- The reserved-tag summary computed by the `profile` view on the list of
reserved tag strings of a user: normalise, decode each tag, sort ascending,
fold into contiguous ranges and render them. `none` models the
`ValueError` a malformed tag raises inside `_base36_to_int`. -/
def summarize (tags : List String) : Option (List RangeLabel) :=
  match (normalizeTags tags).mapM base36_to_int with
  | none => none
  | some values =>
    match sortNat values with
    | [] => some []
    | v :: vs => some ((foldRanges v v vs).map rangeLabel)

/-- `k` consecutive `reserve` calls by one user, stopping at the first
failure — the shape of the bulk-reserve loop in `reserve_asset_tags`. -/
def reserveSeq (user now : Nat) : Nat → Ledger → Except AllocError Ledger
  | 0, st => Except.ok st
  | Nat.succ k, st =>
    match reserve st user now with
    | Except.error e => Except.error e
    | Except.ok (_, st') => reserveSeq user now k st'

/-- The record-level invariant every committed operation maintains: each
row carries the tag derived from its id, ids are positive, below the
auto-increment counter and pairwise distinct, the `assigned_item`
reference is non-null exactly on `assigned` rows, and no two rows hold the
same item (the one-to-one constraint). -/
def LedgerInv (st : Ledger) : Prop :=
  1 ≤ st.nextId ∧
  (∀ r ∈ st.records,
      r.asset_tag = some (tagOf r.id) ∧ 1 ≤ r.id ∧ r.id < st.nextId ∧
      (r.assigned_item ≠ none ↔ r.status = TagStatus.assigned)) ∧
  st.records.Pairwise (fun a b => a.id ≠ b.id) ∧
  (∀ r1 ∈ st.records, ∀ r2 ∈ st.records, ∀ i : Nat,
      r1.assigned_item = some i → r2.assigned_item = some i → r1.id = r2.id)

theorem toBase36Chars_zero (acc : List Char) : toBase36Chars 0 acc = acc := by
  rw [toBase36Chars]
  simp

theorem toBase36Chars_acc (n : Nat) :
    ∀ acc, toBase36Chars n acc = toBase36Chars n [] ++ acc := by
  induction n using Nat.strong_induction_on with
  | _ n ih =>
    intro acc
    by_cases h : n = 0
    · subst h; simp [toBase36Chars_zero]
    · have hlt : n / 36 < n := Nat.div_lt_self (Nat.pos_of_ne_zero h) (by decide)
      conv_lhs => rw [toBase36Chars]
      conv_rhs => rw [toBase36Chars]
      rw [dif_neg h, dif_neg h, ih (n / 36) hlt (base36Digit (n % 36) :: acc),
        ih (n / 36) hlt [base36Digit (n % 36)]]
      simp

theorem toBase36Chars_eq_append (n : Nat) (h : n ≠ 0) :
    toBase36Chars n [] = toBase36Chars (n / 36) [] ++ [base36Digit (n % 36)] := by
  rw [toBase36Chars, dif_neg h, toBase36Chars_acc]

theorem decodeAux_append (xs ys : List Char) :
    ∀ t, decodeAux t (xs ++ ys) =
      (decodeAux t xs).bind (fun u => decodeAux u ys) := by
  induction xs with
  | nil => intro t; simp [decodeAux]
  | cons c cs ih =>
    intro t
    simp only [List.cons_append, decodeAux]
    cases charIndex36 c with
    | none => simp
    | some i => simp [ih]

theorem charIndex36_base36Digit : ∀ r, r < 36 → charIndex36 (base36Digit r) = some r := by
  decide

theorem toUpper_base36Digit : ∀ r, r < 36 → (base36Digit r).toUpper = base36Digit r := by
  decide

theorem base36Digit_mem_alphabet : ∀ r, r < 36 → base36Digit r ∈ base36Alphabet := by
  decide

theorem base36Digit_ne_zero : ∀ r, r < 36 → 0 < r → base36Digit r ≠ '0' := by
  decide

theorem toBase36Chars_digits (n : Nat) :
    ∀ c ∈ toBase36Chars n [], ∃ r, r < 36 ∧ c = base36Digit r := by
  induction n using Nat.strong_induction_on with
  | _ n ih =>
    intro c hc
    by_cases h : n = 0
    · subst h; simp [toBase36Chars] at hc
    · rw [toBase36Chars_eq_append n h] at hc
      rcases List.mem_append.mp hc with hc | hc
      · exact ih (n / 36) (Nat.div_lt_self (Nat.pos_of_ne_zero h) (by decide)) c hc
      · rcases List.mem_singleton.mp hc with rfl
        exact ⟨n % 36, Nat.mod_lt n (by decide), rfl⟩

theorem decodeAux_toBase36Chars (n : Nat) (h : n ≠ 0) :
    ∀ t, decodeAux t (toBase36Chars n []) =
      some (t * 36 ^ (toBase36Chars n []).length + n) := by
  induction n using Nat.strong_induction_on with
  | _ n ih =>
    intro t
    have hlt : n / 36 < n := Nat.div_lt_self (Nat.pos_of_ne_zero h) (by decide)
    rw [toBase36Chars_eq_append n h, decodeAux_append]
    by_cases h36 : n / 36 = 0
    · have hsmall : n < 36 := by
        rcases Nat.lt_or_ge n 36 with hn | hn
        · exact hn
        · exact absurd h36 (Nat.ne_of_gt (Nat.div_pos hn (by decide)))
      rw [h36, toBase36Chars_zero]
      simp [decodeAux, Nat.mod_eq_of_lt hsmall, charIndex36_base36Digit n hsmall]
    · rw [ih (n / 36) hlt h36 t]
      have hd : ∀ u : Nat, decodeAux u [base36Digit (n % 36)] = some (u * 36 + n % 36) := by
        intro u
        simp [decodeAux, charIndex36_base36Digit (n % 36) (Nat.mod_lt n (by decide))]
      simp only [Option.some_bind, hd, List.length_append, List.length_singleton, pow_succ]
      congr 1
      rw [Nat.add_mul, Nat.mul_assoc, Nat.add_assoc, Nat.div_add_mod']

theorem mk_toList (l : List Char) : (String.mk l).toList = l := rfl

theorem toBase36Chars_map_toUpper (n : Nat) :
    (toBase36Chars n []).map Char.toUpper = toBase36Chars n [] := by
  have h : ∀ c ∈ toBase36Chars n [], Char.toUpper c = id c := by
    intro c hc
    rcases toBase36Chars_digits n c hc with ⟨r, hr, rfl⟩
    simpa using toUpper_base36Digit r hr
  rw [List.map_congr_left h, List.map_id]

theorem toBase36Chars_head (n : Nat) (h : n ≠ 0) :
    ∃ r cs, 0 < r ∧ r < 36 ∧ toBase36Chars n [] = base36Digit r :: cs := by
  induction n using Nat.strong_induction_on with
  | _ n ih =>
    have hlt : n / 36 < n := Nat.div_lt_self (Nat.pos_of_ne_zero h) (by decide)
    by_cases h36 : n / 36 = 0
    · have hsmall : n < 36 := by
        rcases Nat.lt_or_ge n 36 with hn | hn
        · exact hn
        · exact absurd h36 (Nat.ne_of_gt (Nat.div_pos hn (by decide)))
      refine ⟨n, [], Nat.pos_of_ne_zero h, hsmall, ?_⟩
      rw [toBase36Chars_eq_append n h, h36, toBase36Chars_zero,
        Nat.mod_eq_of_lt hsmall]
      simp
    · rcases ih (n / 36) hlt h36 with ⟨r, cs, hr0, hr36, heq⟩
      refine ⟨r, cs ++ [base36Digit (n % 36)], hr0, hr36, ?_⟩
      rw [toBase36Chars_eq_append n h, heq]
      simp

theorem base36_to_int_to_base36 (n : Nat) :
    base36_to_int (to_base36 (Int.ofNat n)) = some n := by
  by_cases h : n = 0
  · subst h; decide
  · have hneg : ¬(Int.ofNat n ≤ 0) := by rw [Int.ofNat_eq_natCast]; omega
    have htoNat : (Int.ofNat n).toNat = n := rfl
    simp only [to_base36, if_neg hneg, base36_to_int, mk_toList, htoNat,
      toBase36Chars_map_toUpper]
    rw [decodeAux_toBase36Chars n h 0]
    simp

/-- C4: for every non-negative integer n, decoding the base-36 encoding of
n yields n back: with `to_base36` the integer-to-base-36 function of
models.py (identical to `_int_to_base36` of views.py) and `base36_to_int`
the string-to-integer function of views.py,
`base36_to_int (to_base36 n) = some n`. -/
theorem base36_round_trip (n : Nat) :
    base36_to_int (to_base36 (Int.ofNat n)) = some n :=
  base36_to_int_to_base36 n

/-- C8: for every non-negative integer n, the encoder output consists only
of the characters 0-9A-Z, the encoding of 0 is "0", the least significant
digit of a non-zero n comes last (most significant digit first), and the
leading character is not the zero digit unless n = 0. -/
theorem to_base36_digits_spec (n : Nat) :
    to_base36 (Int.ofNat 0) = "0" ∧
    (∀ c ∈ (to_base36 (Int.ofNat n)).toList, c ∈ base36Alphabet) ∧
    (n ≠ 0 → (to_base36 (Int.ofNat n)).toList =
      toBase36Chars (n / 36) [] ++ [base36Digit (n % 36)]) ∧
    (∀ c, (to_base36 (Int.ofNat n)).toList.head? = some c → n ≠ 0 → c ≠ '0') := by
  by_cases h : n = 0
  · subst h
    refine ⟨rfl, ?_, ?_, ?_⟩
    · decide
    · intro hc; exact absurd rfl hc
    · intro c _ hc; exact absurd rfl hc
  · have hneg : ¬(Int.ofNat n ≤ 0) := by rw [Int.ofNat_eq_natCast]; omega
    have htoNat : (Int.ofNat n).toNat = n := rfl
    have hlist : (to_base36 (Int.ofNat n)).toList = toBase36Chars n [] := by
      simp only [to_base36, if_neg hneg, mk_toList, htoNat]
    refine ⟨rfl, ?_, ?_, ?_⟩
    · intro c hc
      rw [hlist] at hc
      rcases toBase36Chars_digits n c hc with ⟨r, hr, rfl⟩
      exact base36Digit_mem_alphabet r hr
    · intro _
      rw [hlist, toBase36Chars_eq_append n h]
    · intro c hc _
      rw [hlist] at hc
      rcases toBase36Chars_head n h with ⟨r, cs, hr0, hr36, heq⟩
      rw [heq] at hc
      simp only [List.head?_cons, Option.some_inj] at hc
      subst hc
      exact base36Digit_ne_zero r hr36 hr0

theorem to_base36_digits_spec_witness :
    (37 : Nat) ≠ 0 ∧ (to_base36 (Int.ofNat 37)).toList =
      toBase36Chars (37 / 36) [] ++ [base36Digit (37 % 36)] :=
  ⟨by decide, (to_base36_digits_spec 37).2.2.1 (by decide)⟩

/-- C10: both base-36 encoders are total over all integers: every
non-positive argument, the negative ones included, silently yields the
same output "0" that zero yields, rather than an error. -/
theorem to_base36_nonpositive (n : Int) (h : n ≤ 0) :
    to_base36 n = "0" ∧ int_to_base36 n = "0" ∧
    to_base36 n = to_base36 0 ∧ int_to_base36 n = int_to_base36 0 := by
  refine ⟨?_, ?_, ?_, ?_⟩ <;> simp [to_base36, int_to_base36, if_pos h]

theorem to_base36_nonpositive_witness :
    (-5 : Int) ≤ 0 ∧ to_base36 (-5) = "0" :=
  ⟨by decide, (to_base36_nonpositive (-5) (by decide)).1⟩

theorem selOldest_some_spec (l : List TagRecord) :
    ∀ b r, selOldest (some b) l = some r →
      (r = b ∨ r ∈ l) ∧ r.reserved_at ≤ b.reserved_at ∧
        ∀ q ∈ l, r.reserved_at ≤ q.reserved_at := by
  induction l with
  | nil =>
    intro b r h
    simp only [selOldest, Option.some_inj] at h
    subst h
    exact ⟨Or.inl rfl, le_refl _, by simp⟩
  | cons q qs ih =>
    intro b r h
    rw [selOldest, ← apply_ite some] at h
    rcases ih (if q.reserved_at < b.reserved_at then q else b) r h with ⟨hmem, hle, hall⟩
    by_cases hc : q.reserved_at < b.reserved_at
    · rw [if_pos hc] at hmem hle
      refine ⟨?_, le_of_lt (lt_of_le_of_lt hle hc), ?_⟩
      · rcases hmem with rfl | hqs
        · exact Or.inr (List.mem_cons_self _ _)
        · exact Or.inr (List.mem_cons_of_mem _ hqs)
      · intro x hx
        rcases List.mem_cons.mp hx with rfl | hx
        · exact hle
        · exact hall x hx
    · rw [if_neg hc] at hmem hle
      refine ⟨?_, hle, ?_⟩
      · rcases hmem with rfl | hqs
        · exact Or.inl rfl
        · exact Or.inr (List.mem_cons_of_mem _ hqs)
      · intro x hx
        rcases List.mem_cons.mp hx with rfl | hx
        · exact le_trans hle (le_of_not_lt hc)
        · exact hall x hx

theorem selOldest_isSome (l : List TagRecord) :
    ∀ b, ∃ r, selOldest (some b) l = some r := by
  induction l with
  | nil => intro b; exact ⟨b, rfl⟩
  | cons q qs ih =>
    intro b
    rw [selOldest, ← apply_ite some]
    exact ih _

theorem findOldest_some (st : Ledger) (user : Nat) (r : TagRecord) :
    findOldestUnassignedReservedBy st user = some r →
      r ∈ st.records ∧ isUnassignedReservedBy user r = true ∧
      ∀ q ∈ st.records, isUnassignedReservedBy user q = true →
        r.reserved_at ≤ q.reserved_at := by
  intro h
  unfold findOldestUnassignedReservedBy at h
  cases hl : st.records.filter (isUnassignedReservedBy user) with
  | nil => rw [hl] at h; exact absurd h (by simp [selOldest])
  | cons q qs =>
    rw [hl, selOldest] at h
    rcases selOldest_some_spec qs q r h with ⟨hmem, hle, hall⟩
    have hrfilter : r ∈ st.records.filter (isUnassignedReservedBy user) := by
      rw [hl]
      rcases hmem with rfl | hqs
      · exact List.mem_cons_self _ _
      · exact List.mem_cons_of_mem _ hqs
    have hrmem := List.mem_filter.mp hrfilter
    refine ⟨hrmem.1, hrmem.2, ?_⟩
    intro x hx hxel
    have hxfilter : x ∈ st.records.filter (isUnassignedReservedBy user) :=
      List.mem_filter.mpr ⟨hx, hxel⟩
    rw [hl] at hxfilter
    rcases List.mem_cons.mp hxfilter with rfl | hxqs
    · exact hle
    · exact hall x hxqs

theorem findOldest_none (st : Ledger) (user : Nat) :
    findOldestUnassignedReservedBy st user = none →
      ∀ q ∈ st.records, isUnassignedReservedBy user q = false := by
  intro h q hq
  unfold findOldestUnassignedReservedBy at h
  cases hl : st.records.filter (isUnassignedReservedBy user) with
  | nil =>
    rcases Bool.eq_false_or_eq_true (isUnassignedReservedBy user q) with htrue | hfalse
    · exact absurd (by rw [← hl]; exact List.mem_filter.mpr ⟨hq, htrue⟩)
        (List.not_mem_nil q)
    · exact hfalse
  | cons q' qs' =>
    rw [hl, selOldest] at h
    rcases selOldest_isSome qs' q' with ⟨r, hr⟩
    rw [hr] at h
    cases h

/-- C1: when the user owns at least one reserved unassigned record,
`assign` claims a record with the earliest `reserved_at` among them, marks
it assigned and creates no new record (same row count, same auto-increment
counter); when the user owns none, it mints a fresh record through
`reserve` whenever the quota allows; and a quota overflow in that mint is
the only failure `assign` can report. -/
theorem assign_spec (st : Ledger) (user item now : Nat) :
    ((∃ r ∈ st.records, isUnassignedReservedBy user r = true) →
      ∃ r0 st', assign st user item now =
          Except.ok (markAssignedRecord item now r0, st') ∧
        r0 ∈ st.records ∧ isUnassignedReservedBy user r0 = true ∧
        (∀ q ∈ st.records, isUnassignedReservedBy user q = true →
          r0.reserved_at ≤ q.reserved_at) ∧
        st' = markAssigned st r0.id item now ∧
        st'.records.length = st.records.length ∧ st'.nextId = st.nextId) ∧
    ((∀ r ∈ st.records, isUnassignedReservedBy user r = false) →
      countReservedBy st user < 1000 →
      assign st user item now =
        Except.ok (markAssignedRecord item now (createReserved st user now).1,
          markAssigned (createReserved st user now).2
            (createReserved st user now).1.id item now) ∧
      (createReserved st user now).1.id = st.nextId ∧
      (createReserved st user now).1.status = TagStatus.reserved) ∧
    (∀ e, assign st user item now = Except.error e →
      e = AllocError.quotaExceeded ∧ 1000 ≤ countReservedBy st user ∧
      ∀ r ∈ st.records, isUnassignedReservedBy user r = false) := by
  refine ⟨?_, ?_, ?_⟩
  · intro hex
    cases hfind : findOldestUnassignedReservedBy st user with
    | none =>
      rcases hex with ⟨r, hr, hel⟩
      rw [findOldest_none st user hfind r hr] at hel
      cases hel
    | some r0 =>
      rcases findOldest_some st user r0 hfind with ⟨hmem, hel, hmin⟩
      refine ⟨r0, markAssigned st r0.id item now, ?_, hmem, hel, hmin, rfl, ?_, rfl⟩
      · simp only [assign, hfind]
      · simp [markAssigned]
  · intro hnone hquota
    have hfind : findOldestUnassignedReservedBy st user = none := by
      cases hfind : findOldestUnassignedReservedBy st user with
      | none => rfl
      | some r0 =>
        rcases findOldest_some st user r0 hfind with ⟨hmem, hel, _⟩
        rw [hnone r0 hmem] at hel
        cases hel
    have hres : reserve st user now = Except.ok (createReserved st user now) := by
      rw [reserve, if_neg (not_le_of_lt hquota)]
    refine ⟨?_, rfl, rfl⟩
    simp only [assign, hfind, hres]
  · intro e he
    cases hfind : findOldestUnassignedReservedBy st user with
    | some r0 =>
      simp only [assign, hfind] at he
      exact Except.noConfusion he
    | none =>
      simp only [assign, hfind] at he
      by_cases hquota : 1000 ≤ countReservedBy st user
      · rw [reserve, if_pos hquota] at he
        cases e
        exact ⟨rfl, hquota, findOldest_none st user hfind⟩
      · rw [reserve, if_neg hquota] at he
        cases he

theorem assign_spec_witness :
    (∃ r ∈ (createReserved initLedger 7 0).2.records,
      isUnassignedReservedBy 7 r = true) ∧
    ∃ r0 st', assign (createReserved initLedger 7 0).2 7 99 5 =
        Except.ok (markAssignedRecord 99 5 r0, st') ∧
      r0 ∈ (createReserved initLedger 7 0).2.records ∧
      isUnassignedReservedBy 7 r0 = true ∧
      (∀ q ∈ (createReserved initLedger 7 0).2.records,
        isUnassignedReservedBy 7 q = true → r0.reserved_at ≤ q.reserved_at) ∧
      st' = markAssigned (createReserved initLedger 7 0).2 r0.id 99 5 ∧
      st'.records.length = (createReserved initLedger 7 0).2.records.length ∧
      st'.nextId = (createReserved initLedger 7 0).2.nextId :=
  ⟨by decide, (assign_spec (createReserved initLedger 7 0).2 7 99 5).1 (by decide)⟩

theorem countReservedBy_createReserved (st : Ledger) (user now : Nat) :
    countReservedBy (createReserved st user now).2 user = countReservedBy st user + 1 := by
  simp [countReservedBy, createReserved, savedTag, List.filter_append]

theorem reserveSeq_ok (user now k : Nat) :
    ∀ st, countReservedBy st user + k ≤ 1000 →
      ∃ st', reserveSeq user now k st = Except.ok st' ∧
        countReservedBy st' user = countReservedBy st user + k := by
  induction k with
  | zero => intro st _; exact ⟨st, rfl, by omega⟩
  | succ k ih =>
    intro st h
    have hq : ¬(1000 ≤ countReservedBy st user) := by omega
    have hres : reserve st user now = Except.ok (createReserved st user now) := by
      rw [reserve, if_neg hq]
    rcases ih (createReserved st user now).2
        (by rw [countReservedBy_createReserved]; omega) with ⟨st', hseq, hcount⟩
    refine ⟨st', ?_, ?_⟩
    · simp only [reserveSeq, hres]
      exact hseq
    · rw [hcount, countReservedBy_createReserved]
      omega

/-- C3: `reserve` fails with the quota error exactly when the user already
holds at least 1000 reserved records, and otherwise appends and returns a
fresh reserved record; from a state where the user holds none, 1000
consecutive `reserve` calls all succeed and the following call fails with
the quota error. -/
theorem reserve_quota_spec (st : Ledger) (user now : Nat) :
    (reserve st user now = Except.error AllocError.quotaExceeded ↔
      1000 ≤ countReservedBy st user) ∧
    (countReservedBy st user < 1000 →
      reserve st user now = Except.ok (createReserved st user now) ∧
      (createReserved st user now).1.status = TagStatus.reserved ∧
      (createReserved st user now).2.records =
        st.records ++ [(createReserved st user now).1]) ∧
    (countReservedBy st user = 0 →
      ∃ st', reserveSeq user now 1000 st = Except.ok st' ∧
        countReservedBy st' user = 1000 ∧
        reserve st' user now = Except.error AllocError.quotaExceeded) := by
  refine ⟨?_, ?_, ?_⟩
  · constructor
    · intro h
      by_cases hq : 1000 ≤ countReservedBy st user
      · exact hq
      · rw [reserve, if_neg hq] at h
        cases h
    · intro hq
      rw [reserve, if_pos hq]
  · intro hq
    exact ⟨by rw [reserve, if_neg (not_le_of_lt hq)], rfl, rfl⟩
  · intro hzero
    rcases reserveSeq_ok user now 1000 st (by omega) with ⟨st', hseq, hcount⟩
    rw [hzero] at hcount
    refine ⟨st', hseq, by omega, ?_⟩
    rw [reserve, if_pos (by omega)]

theorem reserve_quota_spec_witness :
    countReservedBy initLedger 7 = 0 ∧
    ∃ st', reserveSeq 7 0 1000 initLedger = Except.ok st' ∧
      countReservedBy st' 7 = 1000 ∧
      reserve st' 7 0 = Except.error AllocError.quotaExceeded :=
  ⟨by decide, (reserve_quota_spec initLedger 7 0).2.2 (by decide)⟩

/-- C7: the persisted assignment step of `assign` sets status to assigned,
the item reference and the assignment time on the targeted row — rows keep
their id, tag, reserving user and reservation time, and rows with another
id are untouched (the update persists only the three assignment fields). -/
theorem markAssigned_frame (st : Ledger) (rid item now : Nat) :
    (markAssigned st rid item now).nextId = st.nextId ∧
    (markAssigned st rid item now).records =
      st.records.map (fun r => if r.id = rid then markAssignedRecord item now r else r) ∧
    ∀ r : TagRecord,
      (markAssignedRecord item now r).id = r.id ∧
      (markAssignedRecord item now r).asset_tag = r.asset_tag ∧
      (markAssignedRecord item now r).reserved_by = r.reserved_by ∧
      (markAssignedRecord item now r).reserved_at = r.reserved_at ∧
      (markAssignedRecord item now r).status = TagStatus.assigned ∧
      (markAssignedRecord item now r).assigned_item = some item ∧
      (markAssignedRecord item now r).assigned_at = some now := by
  refine ⟨rfl, rfl, ?_⟩
  intro r
  simp [markAssignedRecord]

theorem list_map_self {α : Type} (l : List α) (f : α → α)
    (h : ∀ a ∈ l, f a = a) : l.map f = l := by
  have h' : ∀ a ∈ l, f a = id a := h
  rw [List.map_congr_left h', List.map_id]

/-- C5: the item-deletion receiver is a total function (it never raises):
with no tag on the deleted item it returns the ledger unchanged, with a tag
matching no record it returns the ledger unchanged, and with a matching
record it sets exactly that record's status to void, keeping its tag, its
id and every other field, and keeping all other records untouched. -/
theorem void_on_item_delete_spec (st : Ledger) (t : String) (ht : t ≠ "") :
    void_asset_tag_on_item_delete st none = st ∧
    ((∀ r ∈ st.records, r.asset_tag ≠ some t) →
      void_asset_tag_on_item_delete st (some t) = st) ∧
    (void_asset_tag_on_item_delete st (some t)).records =
      st.records.map (fun r =>
        if r.asset_tag = some t then { r with status := TagStatus.void } else r) ∧
    (void_asset_tag_on_item_delete st (some t)).nextId = st.nextId ∧
    ∀ r : TagRecord,
      ({ r with status := TagStatus.void } : TagRecord).asset_tag = r.asset_tag ∧
      ({ r with status := TagStatus.void } : TagRecord).id = r.id ∧
      ({ r with status := TagStatus.void } : TagRecord).assigned_item = r.assigned_item ∧
      ({ r with status := TagStatus.void } : TagRecord).status = TagStatus.void := by
  refine ⟨rfl, ?_, ?_, ?_, ?_⟩
  · intro hnone
    have hmap : st.records.map (fun r =>
        if r.asset_tag = some t then { r with status := TagStatus.void } else r) =
        st.records := by
      apply list_map_self
      intro r hr
      rw [if_neg (hnone r hr)]
    simp only [void_asset_tag_on_item_delete, if_neg ht]
    cases st
    simp only [Ledger.mk.injEq]
    exact ⟨trivial, hmap⟩
  · simp only [void_asset_tag_on_item_delete, if_neg ht]
  · simp only [void_asset_tag_on_item_delete, if_neg ht]
  · intro r
    exact ⟨rfl, rfl, rfl, rfl⟩

theorem void_on_item_delete_spec_witness :
    ("000001" : String) ≠ "" ∧
    void_asset_tag_on_item_delete (createReserved initLedger 7 0).2 none =
      (createReserved initLedger 7 0).2 :=
  ⟨by decide,
    (void_on_item_delete_spec (createReserved initLedger 7 0).2 "000001" (by decide)).1⟩

theorem decodeAux_replicate_zero (k : Nat) (cs : List Char) :
    decodeAux 0 (List.replicate k '0' ++ cs) = decodeAux 0 cs := by
  induction k with
  | zero => simp
  | succ k ih =>
    rw [List.replicate_succ, List.cons_append]
    have h0 : charIndex36 '0' = some 0 := by decide
    simp only [decodeAux, h0]
    simpa using ih

theorem base36_to_int_zfill (s : String) (w : Nat) :
    base36_to_int (zfill s w) = base36_to_int s := by
  have h0 : Char.toUpper '0' = '0' := by decide
  simp only [base36_to_int, zfill, mk_toList, List.map_append, List.map_replicate, h0]
  rw [decodeAux_replicate_zero]

theorem base36_to_int_tagOf (n : Nat) : base36_to_int (tagOf n) = some n := by
  rw [tagOf, base36_to_int_zfill]
  exact base36_to_int_to_base36 n

theorem tagOf_inj (a b : Nat) (h : tagOf a = tagOf b) : a = b := by
  have ha := base36_to_int_tagOf a
  rw [h, base36_to_int_tagOf b] at ha
  exact (Option.some_inj.mp ha).symm

theorem zfill_ne_empty (s : String) : zfill s 6 ≠ "" := by
  intro h
  have hlist : List.replicate (6 - s.length) '0' ++ s.toList = ([] : List Char) := by
    have := congrArg String.toList h
    simpa [zfill, mk_toList] using this
  rcases List.append_eq_nil.mp hlist with ⟨h1, h2⟩
  have hlen : s.length = 0 := by
    have := congrArg List.length h2
    simpa using this
  rw [hlen] at h1
  simp at h1

theorem tagOf_ne_empty (n : Nat) : tagOf n ≠ "" :=
  zfill_ne_empty _

theorem createReserved_fst (st : Ledger) (user now : Nat) :
    (createReserved st user now).1 =
      ⟨st.nextId, some (tagOf st.nextId), TagStatus.reserved, some user, now,
        none, none⟩ := rfl

theorem createReserved_snd_records (st : Ledger) (user now : Nat) :
    (createReserved st user now).2.records =
      st.records ++ [(createReserved st user now).1] := rfl

theorem createReserved_snd_nextId (st : Ledger) (user now : Nat) :
    (createReserved st user now).2.nextId = st.nextId + 1 := rfl

theorem eq_of_pairwise_ids {l : List TagRecord}
    (hp : l.Pairwise (fun a b => a.id ≠ b.id)) :
    ∀ a ∈ l, ∀ b ∈ l, a.id = b.id → a = b := by
  intro a ha b hb heq
  by_contra hne
  have hsym : Symmetric (fun a b : TagRecord => a.id ≠ b.id) := by
    intro x y hxy e
    exact hxy e.symm
  exact absurd heq (List.Pairwise.forall hsym hp ha hb hne)

theorem ledger_eq_of (st st' : Ledger) (h1 : st'.nextId = st.nextId)
    (h2 : st'.records = st.records) : st' = st := by
  cases st
  cases st'
  simp_all

theorem ledgerInv_init : LedgerInv initLedger := by
  refine ⟨by decide, ?_, ?_, ?_⟩ <;> simp [initLedger]

theorem reserve_ok_eq {st : Ledger} {user now : Nat} {r : TagRecord} {st' : Ledger}
    (h : reserve st user now = Except.ok (r, st')) :
    r = (createReserved st user now).1 ∧ st' = (createReserved st user now).2 := by
  by_cases hq : 1000 ≤ countReservedBy st user
  · rw [reserve, if_pos hq] at h
    cases h
  · rw [reserve, if_neg hq] at h
    injection h with h2
    exact ⟨(congrArg Prod.fst h2).symm, (congrArg Prod.snd h2).symm⟩

theorem ledgerInv_createReserved (st : Ledger) (user now : Nat)
    (h : LedgerInv st) : LedgerInv (createReserved st user now).2 := by
  obtain ⟨hnext, hrec, hids, hitem⟩ := h
  refine ⟨?_, ?_, ?_, ?_⟩
  · rw [createReserved_snd_nextId]
    omega
  · intro r hr
    rw [createReserved_snd_records] at hr
    rcases List.mem_append.mp hr with hold | hnew
    · rcases hrec r hold with ⟨h1, h2, h3, h4⟩
      refine ⟨h1, h2, ?_, h4⟩
      rw [createReserved_snd_nextId]
      omega
    · rcases List.mem_singleton.mp hnew with rfl
      rw [createReserved_fst]
      refine ⟨rfl, hnext, ?_, by simp⟩
      rw [createReserved_snd_nextId]
      exact Nat.lt_succ_self _
  · rw [createReserved_snd_records, List.pairwise_append]
    refine ⟨hids, List.pairwise_singleton _ _, ?_⟩
    intro a ha b hb
    rcases List.mem_singleton.mp hb with rfl
    rw [createReserved_fst]
    show a.id ≠ st.nextId
    have := (hrec a ha).2.2.1
    omega
  · intro r1 h1 r2 h2 i hi1 hi2
    rw [createReserved_snd_records] at h1 h2
    rcases List.mem_append.mp h1 with h1 | h1
    · rcases List.mem_append.mp h2 with h2 | h2
      · exact hitem r1 h1 r2 h2 i hi1 hi2
      · rcases List.mem_singleton.mp h2 with rfl
        rw [createReserved_fst] at hi2
        exact Option.noConfusion hi2
    · rcases List.mem_singleton.mp h1 with rfl
      rw [createReserved_fst] at hi1
      exact Option.noConfusion hi1

theorem markAssigned_map_id (rid item now : Nat) (r : TagRecord) :
    (if r.id = rid then markAssignedRecord item now r else r).id = r.id := by
  by_cases hid : r.id = rid <;> simp [hid, markAssignedRecord]

theorem markAssigned_map_tag (rid item now : Nat) (r : TagRecord) :
    (if r.id = rid then markAssignedRecord item now r else r).asset_tag = r.asset_tag := by
  by_cases hid : r.id = rid <;> simp [hid, markAssignedRecord]

theorem ledgerInv_markAssigned (st : Ledger) (rid item now : Nat)
    (h : LedgerInv st)
    (hfresh : ∀ q ∈ st.records, q.assigned_item ≠ some item) :
    LedgerInv (markAssigned st rid item now) := by
  obtain ⟨hnext, hrec, hids, hitem⟩ := h
  refine ⟨hnext, ?_, ?_, ?_⟩
  · intro r' hr'
    simp only [markAssigned] at hr'
    rcases List.mem_map.mp hr' with ⟨r, hr, rfl⟩
    rcases hrec r hr with ⟨h1, h2, h3, h4⟩
    by_cases hid : r.id = rid
    · rw [if_pos hid]
      refine ⟨?_, ?_, ?_, ?_⟩
      · simpa [markAssignedRecord] using h1
      · simpa [markAssignedRecord] using h2
      · simpa [markAssignedRecord] using h3
      · simp [markAssignedRecord]
    · rw [if_neg hid]
      exact ⟨h1, h2, h3, h4⟩
  · simp only [markAssigned]
    apply List.Pairwise.map
    · intro a b hab
      rw [markAssigned_map_id, markAssigned_map_id]
      exact hab
    · exact hids
  · intro r1' h1' r2' h2' i hi1 hi2
    simp only [markAssigned] at h1' h2'
    rcases List.mem_map.mp h1' with ⟨r1, hr1, rfl⟩
    rcases List.mem_map.mp h2' with ⟨r2, hr2, rfl⟩
    rw [markAssigned_map_id, markAssigned_map_id]
    by_cases ha : r1.id = rid <;> by_cases hb : r2.id = rid
    · rw [ha, hb]
    · rw [if_pos ha] at hi1
      rw [if_neg hb] at hi2
      have : i = item := by
        have := hi1
        simp [markAssignedRecord] at this
        omega
      rw [this] at hi2
      exact absurd hi2 (hfresh r2 hr2)
    · rw [if_neg ha] at hi1
      rw [if_pos hb] at hi2
      have : i = item := by
        have := hi2
        simp [markAssignedRecord] at this
        omega
      rw [this] at hi1
      exact absurd hi1 (hfresh r1 hr1)
    · rw [if_neg ha] at hi1
      rw [if_neg hb] at hi2
      exact hitem r1 hr1 r2 hr2 i hi1 hi2

theorem setNull_records (st : Ledger) (item : Nat) :
    (setNullAssignedItem st item).records =
      st.records.map (fun r =>
        if r.assigned_item = some item then { r with assigned_item := none } else r) := rfl

theorem nullRec_id (item : Nat) (q : TagRecord) :
    (if q.assigned_item = some item then { q with assigned_item := none } else q).id =
      q.id := by
  by_cases h : q.assigned_item = some item <;> simp [h]

theorem nullRec_tag (item : Nat) (q : TagRecord) :
    (if q.assigned_item = some item then { q with assigned_item := none } else q).asset_tag =
      q.asset_tag := by
  by_cases h : q.assigned_item = some item <;> simp [h]

theorem voidRec_id (t : String) (q : TagRecord) :
    (if q.asset_tag = some t then { q with status := TagStatus.void } else q).id =
      q.id := by
  by_cases h : q.asset_tag = some t <;> simp [h]

theorem voidRec_tag (t : String) (q : TagRecord) :
    (if q.asset_tag = some t then { q with status := TagStatus.void } else q).asset_tag =
      q.asset_tag := by
  by_cases h : q.asset_tag = some t <;> simp [h]

theorem voidRec_item (t : String) (q : TagRecord) :
    (if q.asset_tag = some t then { q with status := TagStatus.void } else q).assigned_item =
      q.assigned_item := by
  by_cases h : q.asset_tag = some t <;> simp [h]

theorem ledgerInv_deleteItem (st : Ledger) (item : Nat) (h : LedgerInv st) :
    LedgerInv (deleteItem st item) := by
  obtain ⟨hnext, hrec, hids, hitem⟩ := h
  cases hfind : st.records.find? (fun r => r.assigned_item == some item) with
  | none =>
    have hnone : ∀ r ∈ st.records, r.assigned_item ≠ some item := by
      intro r hr hcontra
      have hp := List.find?_eq_none.mp hfind r hr
      exact hp (by simp [hcontra])
    have hmap : (setNullAssignedItem st item).records = st.records := by
      rw [setNull_records]
      apply list_map_self
      intro r hr
      rw [if_neg (hnone r hr)]
    have htag : itemTagOf st item = none := by
      rw [itemTagOf, hfind]
      rfl
    have hdel : deleteItem st item = st := by
      rw [deleteItem, htag]
      show setNullAssignedItem st item = st
      exact ledger_eq_of st _ rfl hmap
    rw [hdel]
    exact ⟨hnext, hrec, hids, hitem⟩
  | some r0 =>
    have hr0mem : r0 ∈ st.records := List.mem_of_find?_eq_some hfind
    have hr0item : r0.assigned_item = some item := by
      have := List.find?_some hfind
      simpa using this
    rcases hrec r0 hr0mem with ⟨hr0tag, hr0pos, hr0lt, hr0iff⟩
    have htag : itemTagOf st item = some (tagOf r0.id) := by
      rw [itemTagOf, hfind]
      simp [hr0tag]
    have htne : ¬(tagOf r0.id = "") := tagOf_ne_empty _
    have hdelrec : (deleteItem st item).records =
        st.records.map (fun r =>
          if (if r.assigned_item = some item then
              { r with assigned_item := none } else r).asset_tag = some (tagOf r0.id)
          then { (if r.assigned_item = some item then
              { r with assigned_item := none } else r) with status := TagStatus.void }
          else (if r.assigned_item = some item then
              { r with assigned_item := none } else r)) := by
      rw [deleteItem, htag]
      simp only [void_asset_tag_on_item_delete, if_neg htne]
      rw [setNull_records, List.map_map]
      rfl
    have hdelnext : (deleteItem st item).nextId = st.nextId := by
      rw [deleteItem, htag]
      simp only [void_asset_tag_on_item_delete, if_neg htne]
      rfl
    refine ⟨by rw [hdelnext]; exact hnext, ?_, ?_, ?_⟩
    · intro r' hr'
      rw [hdelrec] at hr'
      rcases List.mem_map.mp hr' with ⟨r, hr, rfl⟩
      rcases hrec r hr with ⟨h1, h2, h3, h4⟩
      by_cases hri : r.assigned_item = some item
      · have hid : r.id = r0.id := hitem r hr r0 hr0mem item hri hr0item
        have hreq : r = r0 := eq_of_pairwise_ids hids r hr r0 hr0mem hid
        subst hreq
        rw [if_pos hri]
        have hmatch : ({ r with assigned_item := none } : TagRecord).asset_tag =
            some (tagOf r.id) := h1
        rw [if_pos hmatch]
        refine ⟨h1, h2, by rw [hdelnext]; exact h3, by simp⟩
      · rw [if_neg hri]
        by_cases hrt : r.asset_tag = some (tagOf r0.id)
        · exfalso
          rw [h1] at hrt
          have : r.id = r0.id := tagOf_inj _ _ (Option.some_inj.mp hrt)
          have hreq : r = r0 := eq_of_pairwise_ids hids r hr r0 hr0mem this
          rw [hreq] at hri
          exact hri hr0item
        · rw [if_neg hrt]
          exact ⟨h1, h2, by rw [hdelnext]; exact h3, h4⟩
    · rw [hdelrec]
      apply List.Pairwise.map
      · intro a b hab
        rw [voidRec_id, voidRec_id, nullRec_id, nullRec_id]
        exact hab
      · exact hids
    · intro r1' h1' r2' h2' i hi1 hi2
      rw [hdelrec] at h1' h2'
      rcases List.mem_map.mp h1' with ⟨r1, hr1, rfl⟩
      rcases List.mem_map.mp h2' with ⟨r2, hr2, rfl⟩
      rw [voidRec_id, nullRec_id, voidRec_id, nullRec_id]
      rw [voidRec_item] at hi1 hi2
      have hfact : ∀ q : TagRecord, q ∈ st.records →
          (if q.assigned_item = some item then
            { q with assigned_item := none } else q).assigned_item = some i →
          q.assigned_item = some i := by
        intro q _ hq
        by_cases hqi : q.assigned_item = some item
        · rw [if_pos hqi] at hq
          exact Option.noConfusion hq
        · rwa [if_neg hqi] at hq
      exact hitem r1 hr1 r2 hr2 i (hfact r1 hr1 hi1) (hfact r2 hr2 hi2)

theorem assign_ok_cases {st : Ledger} {user item now : Nat} {r : TagRecord}
    {st' : Ledger} (h : assign st user item now = Except.ok (r, st')) :
    (∃ r0, findOldestUnassignedReservedBy st user = some r0 ∧
      r = markAssignedRecord item now r0 ∧ st' = markAssigned st r0.id item now) ∨
    (findOldestUnassignedReservedBy st user = none ∧
      r = markAssignedRecord item now (createReserved st user now).1 ∧
      st' = markAssigned (createReserved st user now).2
        (createReserved st user now).1.id item now) := by
  cases hfind : findOldestUnassignedReservedBy st user with
  | some r0 =>
    left
    simp only [assign, hfind] at h
    injection h with h2
    exact ⟨r0, rfl, (congrArg Prod.fst h2).symm, (congrArg Prod.snd h2).symm⟩
  | none =>
    right
    simp only [assign, hfind] at h
    cases hres : reserve st user now with
    | error e =>
      rw [hres] at h
      exact absurd h (by simp)
    | ok p =>
      rcases p with ⟨r1, st1⟩
      rw [hres] at h
      rcases reserve_ok_eq hres with ⟨hp1, hp2⟩
      injection h with h2
      have e1 : markAssignedRecord item now r1 = r := congrArg Prod.fst h2
      have e2 : markAssigned st1 r1.id item now = st' := congrArg Prod.snd h2
      rw [← e1, ← e2, hp1, hp2]
      exact ⟨rfl, rfl, rfl⟩

theorem ledgerInv_step {st st' : Ledger} (h : LedgerInv st) (hs : Step st st') :
    LedgerInv st' := by
  cases hs with
  | reserveStep user now r st2 heq =>
    rcases reserve_ok_eq heq with ⟨_, rfl⟩
    exact ledgerInv_createReserved st user now h
  | assignStep user item now r st2 hfresh heq =>
    rcases assign_ok_cases heq with ⟨r0, hfind, hr, rfl⟩ | ⟨hfind, hr, rfl⟩
    · exact ledgerInv_markAssigned st r0.id item now h hfresh
    · apply ledgerInv_markAssigned _ _ _ _ (ledgerInv_createReserved st user now h)
      intro q hq
      rw [createReserved_snd_records] at hq
      rcases List.mem_append.mp hq with hq | hq
      · exact hfresh q hq
      · rcases List.mem_singleton.mp hq with rfl
        rw [createReserved_fst]
        exact fun hc => Option.noConfusion hc
  | releaseStep item =>
    exact ledgerInv_deleteItem st item h

theorem ledgerInv_reachable {st : Ledger} (h : Reachable st) : LedgerInv st := by
  induction h with
  | init => exact ledgerInv_init
  | step hr hs ih => exact ledgerInv_step ih hs

theorem reachable_one_reserve : Reachable (createReserved initLedger 7 0).2 :=
  Reachable.step Reachable.init
    (Step.reserveStep initLedger 7 0 (createReserved initLedger 7 0).1
      (createReserved initLedger 7 0).2 rfl)

theorem voidByTag_records (st : Ledger) (t : String) (ht : ¬(t = "")) :
    (void_asset_tag_on_item_delete st (some t)).records =
      st.records.map (fun r =>
        if r.asset_tag = some t then { r with status := TagStatus.void } else r) := by
  simp only [void_asset_tag_on_item_delete, if_neg ht]

theorem deleteItem_tags (st : Ledger) (item : Nat) :
    ∀ r ∈ st.records, ∃ q ∈ (deleteItem st item).records,
      q.id = r.id ∧ q.asset_tag = r.asset_tag := by
  intro r hr
  rw [deleteItem]
  cases htag : itemTagOf st item with
  | none =>
    show ∃ q ∈ (setNullAssignedItem st item).records,
      q.id = r.id ∧ q.asset_tag = r.asset_tag
    rw [setNull_records]
    exact ⟨_, List.mem_map.mpr ⟨r, hr, rfl⟩, nullRec_id item r, nullRec_tag item r⟩
  | some t =>
    by_cases ht : t = ""
    · have hid : void_asset_tag_on_item_delete (setNullAssignedItem st item) (some t) =
          setNullAssignedItem st item := by
        simp only [void_asset_tag_on_item_delete, if_pos ht]
      rw [hid, setNull_records]
      exact ⟨_, List.mem_map.mpr ⟨r, hr, rfl⟩, nullRec_id item r, nullRec_tag item r⟩
    · rw [voidByTag_records _ t ht, setNull_records, List.map_map]
      refine ⟨_, List.mem_map.mpr ⟨r, hr, rfl⟩, ?_, ?_⟩
      · simp only [Function.comp]
        rw [voidRec_id, nullRec_id]
      · simp only [Function.comp]
        rw [voidRec_tag, nullRec_tag]

theorem step_preserves_tags {st st' : Ledger} (hs : Step st st') :
    ∀ r ∈ st.records, ∃ q ∈ st'.records, q.id = r.id ∧ q.asset_tag = r.asset_tag := by
  cases hs with
  | reserveStep user now r2 st2 heq =>
    rcases reserve_ok_eq heq with ⟨_, rfl⟩
    intro r hr
    refine ⟨r, ?_, rfl, rfl⟩
    rw [createReserved_snd_records]
    exact List.mem_append_left _ hr
  | assignStep user item now r2 st2 hfresh heq =>
    rcases assign_ok_cases heq with ⟨r0, hfind, hr2, rfl⟩ | ⟨hfind, hr2, rfl⟩
    · intro r hr
      refine ⟨_, ?_, markAssigned_map_id r0.id item now r, markAssigned_map_tag r0.id item now r⟩
      simp only [markAssigned]
      exact List.mem_map.mpr ⟨r, hr, rfl⟩
    · intro r hr
      refine ⟨_, ?_, markAssigned_map_id (createReserved st user now).1.id item now r,
        markAssigned_map_tag (createReserved st user now).1.id item now r⟩
      simp only [markAssigned]
      apply List.mem_map.mpr
      refine ⟨r, ?_, rfl⟩
      rw [createReserved_snd_records]
      exact List.mem_append_left _ hr
  | releaseStep item =>
    exact deleteItem_tags st item

/-- C9: in every ledger state reachable by any sequence of committed
reserve, assign and item-deletion operations, a record's item reference is
non-null exactly when its status is assigned: reserved records carry no
item, assignment sets the status and the reference together, and deleting
the bound item clears the reference while voiding the record. -/
theorem assigned_item_iff_assigned (st : Ledger) (h : Reachable st) :
    ∀ r ∈ st.records, (r.assigned_item ≠ none ↔ r.status = TagStatus.assigned) := by
  intro r hr
  exact ((ledgerInv_reachable h).2.1 r hr).2.2.2

theorem assigned_item_iff_assigned_witness :
    ((createReserved initLedger 7 0).1.assigned_item ≠ none ↔
      (createReserved initLedger 7 0).1.status = TagStatus.assigned) :=
  assigned_item_iff_assigned (createReserved initLedger 7 0).2 reachable_one_reserve
    (createReserved initLedger 7 0).1
    (by rw [createReserved_snd_records]
        exact List.mem_append_right _ (List.mem_singleton_self _))

theorem string_length_mk (l : List Char) : (String.mk l).length = l.length := rfl

theorem toBase36Chars_length_le (k : Nat) :
    ∀ n, n < 36 ^ k → (toBase36Chars n []).length ≤ k := by
  induction k with
  | zero =>
    intro n h
    rw [pow_zero] at h
    have : n = 0 := by omega
    subst this
    simp [toBase36Chars_zero]
  | succ k ih =>
    intro n h
    by_cases h0 : n = 0
    · subst h0
      simp [toBase36Chars_zero]
    · rw [toBase36Chars_eq_append n h0, List.length_append, List.length_singleton]
      have hdiv : n / 36 < 36 ^ k := by
        rw [pow_succ'] at h
        exact Nat.div_lt_of_lt_mul h
      have := ih (n / 36) hdiv
      omega

theorem toBase36Chars_length_ge (k : Nat) :
    ∀ n, 36 ^ k ≤ n → k + 1 ≤ (toBase36Chars n []).length := by
  induction k with
  | zero =>
    intro n h
    rw [pow_zero] at h
    have h0 : n ≠ 0 := by omega
    rw [toBase36Chars_eq_append n h0, List.length_append, List.length_singleton]
    omega
  | succ k ih =>
    intro n h
    have hp : 0 < 36 ^ (k + 1) := pow_pos (by decide) _
    have h0 : n ≠ 0 := by omega
    rw [toBase36Chars_eq_append n h0, List.length_append, List.length_singleton]
    have hdiv : 36 ^ k ≤ n / 36 := by
      rw [pow_succ] at h
      exact (Nat.le_div_iff_mul_le (by decide)).mpr h
    have := ih (n / 36) hdiv
    omega

theorem zfill_length_of_le (s : String) (h : s.length ≤ 6) :
    (zfill s 6).length = 6 := by
  rw [zfill, string_length_mk, List.length_append, List.length_replicate]
  have hl : s.toList.length = s.length := rfl
  omega

theorem to_base36_length_le (n : Nat) (h : n < 36 ^ 6) :
    (to_base36 (Int.ofNat n)).length ≤ 6 := by
  by_cases h0 : n = 0
  · subst h0
    have h00 : to_base36 (Int.ofNat 0) = "0" := rfl
    rw [h00]
    decide
  · have hneg : ¬(Int.ofNat n ≤ 0) := by rw [Int.ofNat_eq_natCast]; omega
    simp only [to_base36, if_neg hneg, string_length_mk]
    exact toBase36Chars_length_le 6 ((Int.ofNat n).toNat) (by simpa using h)

theorem tagOf_length (n : Nat) (h : n < 36 ^ 6) : (tagOf n).length = 6 :=
  zfill_length_of_le _ (to_base36_length_le n h)

theorem zfill_length_of_ge (s : String) (h : 7 ≤ s.length) :
    (zfill s 6).length ≠ 6 := by
  rw [zfill, string_length_mk, List.length_append, List.length_replicate]
  have hl : s.toList.length = s.length := rfl
  omega

theorem tagOf_pow6_len_ne_6 : (tagOf (36 ^ 6)).length ≠ 6 := by
  have hp : 0 < (36 : Nat) ^ 6 := pow_pos (by decide) _
  have hneg : ¬(Int.ofNat (36 ^ 6) ≤ 0) := by rw [Int.ofNat_eq_natCast]; omega
  have hlen : 7 ≤ (to_base36 (Int.ofNat (36 ^ 6))).length := by
    simp only [to_base36, if_neg hneg, string_length_mk]
    exact toBase36Chars_length_ge 6 ((Int.ofNat (36 ^ 6)).toNat) (le_of_eq rfl)
  exact zfill_length_of_ge _ hlen

theorem reachable_fresh_users (k : Nat) :
    ∃ st, Reachable st ∧ st.nextId = k + 1 ∧
      (∀ r ∈ st.records, ∃ u, r.reserved_by = some u ∧ 1 ≤ u ∧ u ≤ k) ∧
      (1 ≤ k → ∃ r ∈ st.records, r.id = k ∧ r.asset_tag = some (tagOf k)) := by
  induction k with
  | zero =>
    exact ⟨initLedger, Reachable.init, rfl, by simp [initLedger], by omega⟩
  | succ k ih =>
    rcases ih with ⟨st, hreach, hnext, husers, _⟩
    have hcount : countReservedBy st (k + 1) = 0 := by
      rw [countReservedBy]
      have hfil : st.records.filter
          (fun r => r.reserved_by == some (k + 1) && r.status == TagStatus.reserved) =
          [] := by
        rw [List.filter_eq_nil_iff]
        intro r hr
        rcases husers r hr with ⟨u, hu, hu1, huk⟩
        simp only [hu, Bool.not_eq_true, Bool.and_eq_true, beq_iff_eq, not_and,
          Option.some_inj]
        intro hc
        omega
      rw [hfil]
      rfl
    have hres : reserve st (k + 1) 0 = Except.ok (createReserved st (k + 1) 0) := by
      rw [reserve, hcount, if_neg (by omega)]
    refine ⟨(createReserved st (k + 1) 0).2,
      Reachable.step hreach (Step.reserveStep st (k + 1) 0
        (createReserved st (k + 1) 0).1 (createReserved st (k + 1) 0).2 hres),
      ?_, ?_, ?_⟩
    · rw [createReserved_snd_nextId, hnext]
    · intro r hr
      rw [createReserved_snd_records] at hr
      rcases List.mem_append.mp hr with hr | hr
      · rcases husers r hr with ⟨u, hu, h1, h2⟩
        exact ⟨u, hu, h1, by omega⟩
      · rcases List.mem_singleton.mp hr with rfl
        rw [createReserved_fst]
        exact ⟨k + 1, rfl, by omega, le_refl _⟩
    · intro _
      refine ⟨(createReserved st (k + 1) 0).1, ?_, ?_, ?_⟩
      · rw [createReserved_snd_records]
        exact List.mem_append_right _ (List.mem_singleton_self _)
      · rw [createReserved_fst, hnext]
      · rw [createReserved_fst, hnext]

/-- C2 counterexample: some reachable ledger state (concretely, the state
after 36^6 reservations, each made by a distinct user so no quota is ever
hit) contains a record whose tag is the zero-padded base-36 rendering of
its id yet is not 6 characters wide — the record with id 36^6 gets a
7-character tag, so the unqualified fixed-width part of the claim fails. -/
theorem tag_width_counterexample :
    ∃ st, Reachable st ∧ ∃ r ∈ st.records,
      r.asset_tag = some (tagOf r.id) ∧ (tagOf r.id).length ≠ 6 := by
  have hp : 0 < (36 : Nat) ^ 6 := pow_pos (by decide) _
  rcases reachable_fresh_users (36 ^ 6) with ⟨st, hreach, _, _, hlast⟩
  rcases hlast (by omega) with ⟨r, hr, hid, htagr⟩
  refine ⟨st, hreach, r, hr, ?_, ?_⟩
  · rw [hid, htagr]
  · rw [hid]
    exact tagOf_pow6_len_ne_6

/-- C2 (amended): in every reachable ledger state every record carries,
assigned once at creation and never modified or removed by any later
operation, the zero-left-padded base-36 rendering of its id as its tag;
tag strings are pairwise distinct across all records, Void ones included,
so no tag is ever reissued; and the tag is exactly 6 characters wide
whenever the id is below 36^6 (for larger ids the padding is outgrown and
the rendering is wider). -/
theorem tag_derivation_spec (st st' : Ledger) (h : Reachable st) :
    (∀ r ∈ st.records, r.asset_tag = some (tagOf r.id) ∧
      (r.id < 36 ^ 6 → (tagOf r.id).length = 6)) ∧
    st.records.Pairwise (fun a b => a.asset_tag ≠ b.asset_tag) ∧
    (Step st st' → ∀ r ∈ st.records, ∃ q ∈ st'.records,
      q.id = r.id ∧ q.asset_tag = r.asset_tag) := by
  obtain ⟨hnext, hrec, hids, hitem⟩ := ledgerInv_reachable h
  refine ⟨?_, ?_, ?_⟩
  · intro r hr
    exact ⟨(hrec r hr).1, fun hlt => tagOf_length r.id hlt⟩
  · refine List.Pairwise.imp_of_mem ?_ hids
    intro a b ha hb hne heq
    rw [(hrec a ha).1, (hrec b hb).1] at heq
    exact hne (tagOf_inj _ _ (Option.some_inj.mp heq))
  · intro hs
    exact step_preserves_tags hs

theorem tag_derivation_spec_witness :
    (∀ r ∈ (createReserved initLedger 7 0).2.records,
      r.asset_tag = some (tagOf r.id) ∧ (r.id < 36 ^ 6 → (tagOf r.id).length = 6)) ∧
    (createReserved initLedger 7 0).2.records.Pairwise
      (fun a b => a.asset_tag ≠ b.asset_tag) ∧
    (Step (createReserved initLedger 7 0).2 initLedger →
      ∀ r ∈ (createReserved initLedger 7 0).2.records, ∃ q ∈ initLedger.records,
        q.id = r.id ∧ q.asset_tag = r.asset_tag) :=
  tag_derivation_spec (createReserved initLedger 7 0).2 initLedger reachable_one_reserve

theorem foldRanges_spec (vs : List Nat) :
    ∀ s e, s ≤ e → List.Chain (fun a b => a < b) e vs →
      (∀ p ∈ foldRanges s e vs, p.1 ≤ p.2) ∧
      (∃ e1, (foldRanges s e vs).head? = some (s, e1)) ∧
      List.Chain' (fun p q => p.2 + 1 < q.1) (foldRanges s e vs) ∧
      (∀ x, (∃ p ∈ foldRanges s e vs, p.1 ≤ x ∧ x ≤ p.2) ↔
        (s ≤ x ∧ x ≤ e) ∨ x ∈ vs) := by
  induction vs with
  | nil =>
    intro s e hse _
    refine ⟨?_, ⟨e, rfl⟩, ?_, ?_⟩
    · intro p hp
      rcases List.mem_singleton.mp hp with rfl
      exact hse
    · simp [foldRanges]
    · intro x
      simp [foldRanges]
  | cons v vs ih =>
    intro s e hse hchain
    obtain ⟨hev, hchain2⟩ := List.chain_cons.mp hchain
    by_cases hv : v = e + 1
    · simp only [foldRanges, if_pos hv]
      have hsv : s ≤ v := by omega
      rcases ih s v hsv hchain2 with ⟨h1, h2, h3, h4⟩
      refine ⟨h1, h2, h3, ?_⟩
      intro x
      rw [h4 x]
      constructor
      · rintro (⟨hx1, hx2⟩ | hx)
        · by_cases hxe : x ≤ e
          · exact Or.inl ⟨hx1, hxe⟩
          · have hxv : x = v := by omega
            subst hxv
            exact Or.inr (List.mem_cons_self _ _)
        · exact Or.inr (List.mem_cons_of_mem _ hx)
      · rintro (⟨hx1, hx2⟩ | hx)
        · exact Or.inl ⟨hx1, by omega⟩
        · rcases List.mem_cons.mp hx with rfl | hx
          · exact Or.inl ⟨by omega, le_refl _⟩
          · exact Or.inr hx
    · simp only [foldRanges, if_neg hv]
      rcases ih v v (le_refl v) hchain2 with ⟨h1, h2, h3, h4⟩
      refine ⟨?_, ⟨e, rfl⟩, ?_, ?_⟩
      · intro p hp
        rcases List.mem_cons.mp hp with rfl | hp
        · exact hse
        · exact h1 p hp
      · rcases h2 with ⟨e1, he1⟩
        rw [List.chain'_cons']
        refine ⟨?_, h3⟩
        intro q hq
        rw [he1, Option.mem_some_iff] at hq
        subst hq
        show e + 1 < v
        omega
      · intro x
        constructor
        · rintro ⟨p, hp, hx1, hx2⟩
          rcases List.mem_cons.mp hp with rfl | hp
          · exact Or.inl ⟨hx1, hx2⟩
          · rcases (h4 x).mp ⟨p, hp, hx1, hx2⟩ with ⟨hv1, hv2⟩ | hx
            · right
              have hxv : x = v := by omega
              subst hxv
              exact List.mem_cons_self _ _
            · right
              exact List.mem_cons_of_mem _ hx
        · rintro (⟨hx1, hx2⟩ | hx)
          · exact ⟨(s, e), List.mem_cons_self _ _, hx1, hx2⟩
          · rcases List.mem_cons.mp hx with rfl | hx
            · rcases (h4 x).mpr (Or.inl ⟨le_refl _, le_refl _⟩) with ⟨p, hp, hxx⟩
              exact ⟨p, List.mem_cons_of_mem _ hp, hxx⟩
            · rcases (h4 x).mpr (Or.inr hx) with ⟨p, hp, hxx⟩
              exact ⟨p, List.mem_cons_of_mem _ hp, hxx⟩

theorem sortNat_perm (l : List Nat) : sortNat l = l.insertionSort (fun a b => a ≤ b) := rfl

theorem sortNat_chain_lt (l : List Nat) (hnd : l.Nodup) (v : Nat) (vs : List Nat)
    (hsort : sortNat l = v :: vs) : List.Chain (fun a b => a < b) v vs := by
  have hsorted : (sortNat l).Sorted (fun a b => a ≤ b) :=
    List.sorted_insertionSort _ l
  have hperm : List.Perm (sortNat l) l := List.perm_insertionSort _ l
  have hnd2 : (sortNat l).Nodup := hperm.symm.nodup hnd
  have hpl : (sortNat l).Pairwise (fun a b => a < b) := by
    have hand := List.Pairwise.and hsorted hnd2
    exact hand.imp (fun hab => lt_of_le_of_ne hab.1 hab.2)
  rw [hsort] at hpl
  have := hpl.chain'
  exact this

/-- C6: the reserved-tag summary of the `profile` view decodes each tag
string to its integer id, sorts ascending and folds into contiguous
ranges: every emitted range has start at most stop, consecutive ranges are
separated by a gap of at least one id (so each range is maximal and starts
strictly ascend), the ranges cover exactly the decoded ids, and each range
is rendered as the single zero-padded tag when start equals stop and as
start-tag, a spaced dash, stop-tag otherwise, with count equal to
stop minus start plus one; on the concrete input of the four tags 000001,
000002, 000003 and 000005 the output is the 000001 - 000003 range of
count 3 followed by the single 000005 of count 1. The summary is a pure
function: it only reads its input and mutates nothing. -/
theorem summarize_spec (tags : List String) (values : List Nat)
    (hdec : (normalizeTags tags).mapM base36_to_int = some values)
    (hnd : values.Nodup) :
    (∃ ranges : List (Nat × Nat),
      summarize tags = some (ranges.map rangeLabel) ∧
      (∀ p ∈ ranges, p.1 ≤ p.2) ∧
      List.Chain' (fun p q => p.2 + 1 < q.1) ranges ∧
      (∀ x, (∃ p ∈ ranges, p.1 ≤ x ∧ x ≤ p.2) ↔ x ∈ values) ∧
      (∀ p ∈ ranges, rangeLabel p =
        { label :=
            if p.1 = p.2 then zfill (int_to_base36 (Int.ofNat p.1)) 6
            else zfill (int_to_base36 (Int.ofNat p.1)) 6 ++ " - " ++
              zfill (int_to_base36 (Int.ofNat p.2)) 6,
          count := (p.2 : Int) - (p.1 : Int) + 1 })) ∧
    summarize ["000001", "000002", "000003", "000005"] =
      some [{ label := "000001 - 000003", count := 3 },
        { label := "000005", count := 1 }] := by
  constructor
  · cases hsort : sortNat values with
    | nil =>
      have hperm : List.Perm (sortNat values) values :=
        List.perm_insertionSort _ values
      rw [hsort] at hperm
      have hvals : values = [] :=
        List.eq_nil_of_length_eq_zero (hperm.length_eq.symm)
      refine ⟨[], ?_, by simp, by simp, ?_, by simp⟩
      · simp only [summarize, hdec, hsort]
        rfl
      · intro x
        rw [hvals]
        simp
    | cons v vs =>
      have hchain := sortNat_chain_lt values hnd v vs hsort
      rcases foldRanges_spec vs v v (le_refl v) hchain with ⟨h1, _, h3, h4⟩
      refine ⟨foldRanges v v vs, ?_, h1, h3, ?_, fun p _ => rfl⟩
      · simp only [summarize, hdec, hsort]
      · intro x
        rw [h4 x]
        have hxmem : x ∈ sortNat values ↔ x ∈ values :=
          (List.perm_insertionSort _ values).mem_iff
        rw [hsort] at hxmem
        rw [← hxmem, List.mem_cons]
        constructor
        · rintro (⟨ha, hb⟩ | h)
          · left
            omega
          · right
            exact h
        · rintro (rfl | h)
          · exact Or.inl ⟨le_refl _, le_refl _⟩
          · exact Or.inr h
  · have h1 : (normalizeTags ["000001", "000002", "000003", "000005"]).mapM
        base36_to_int = some [1, 2, 3, 5] := by decide
    have h2 : sortNat [1, 2, 3, 5] = [1, 2, 3, 5] := by decide
    have h3 : foldRanges 1 1 [2, 3, 5] = [(1, 3), (5, 5)] := by decide
    have hr1 : rangeLabel (1, 3) = { label := "000001 - 000003", count := 3 } := by
      simp [rangeLabel, int_to_base36, toBase36Chars, zfill]
      decide
    have hr2 : rangeLabel (5, 5) = { label := "000005", count := 1 } := by
      simp [rangeLabel, int_to_base36, toBase36Chars, zfill]
      decide
    simp only [summarize, h1, h2, h3, List.map, hr1, hr2]

theorem summarize_spec_witness :
    ((normalizeTags ["000001", "000002", "000003", "000005"]).mapM base36_to_int =
      some [1, 2, 3, 5]) ∧
    ([1, 2, 3, 5] : List Nat).Nodup ∧
    summarize ["000001", "000002", "000003", "000005"] =
      some [{ label := "000001 - 000003", count := 3 },
        { label := "000005", count := 1 }] :=
  ⟨by decide, by decide,
    (summarize_spec ["000001", "000002", "000003", "000005"] [1, 2, 3, 5]
      (by decide) (by decide)).2⟩

end PartVault
